import Mathlib

/-!
Shallow embedding of `src/bitfield.rs`: a generic bitfield abstraction over
fixed-width unsigned integers (u8/u16/u32/u64), together with an iterator
over the set bit positions.

Bitfield values of a width-W unsigned type are embedded as natural numbers
below `2 ^ W`; the bitwise operations of the source (`&`, `|`, `!`, `<<`,
`>>`) become the corresponding operations on `Nat`, with truncation to
W bits (`% 2 ^ W` / xor with the all-ones mask) exactly where the W-bit
machine type constrains the result.
-/

namespace Bitfield

/-- The closed set of integer types for which the source provides the
`BitSized` helper trait (`impl BitSized for u8/u16/u32/u64`). -/
inductive IntWidth where
  | u8
  | u16
  | u32
  | u64
deriving DecidableEq

/-- `BitSized::size()` per implementing type: 8, 16, 32 and 64. -/
def IntWidth.size : IntWidth → Nat
  | .u8 => 8
  | .u16 => 16
  | .u32 => 32
  | .u64 => 64

/-- `pub type DefaultBitField = u32;` -/
def DefaultBitField : IntWidth := IntWidth.u32

/-- A width `W` is supported when some implementing type has that bit size. -/
def SupportedWidth (W : Nat) : Prop := ∃ t : IntWidth, t.size = W

/-- Rust `!x` on a W-bit unsigned value: complement within the W-bit field. -/
def wnot (W x : Nat) : Nat := x ^^^ (2 ^ W - 1)

/-- `fn one_at(index) -> Self { Self::from(1) << index }` on a W-bit type:
the shift result truncated to W bits (for `index < W` this is `2 ^ index`
with no truncation). -/
def one_at (W index : Nat) : Nat := (1 <<< index) % 2 ^ W

/-- `fn zero_at(index) -> Self { !Self::one_at(index) }` -/
def zero_at (W index : Nat) : Nat := wnot W (one_at W index)

/-- `fn full(&self) -> bool { *self == Self::one_at(0) | Self::zero_at(0) }` -/
def full (W v : Nat) : Bool := v == (one_at W 0 ||| zero_at W 0)

/-- `pub struct BitFieldIterator<T>(T, usize)`: the remaining bits and the
current cursor index. -/
structure BitFieldIterator where
  bitfield : Nat
  index : Nat
deriving DecidableEq

/-- `fn iter(&self) -> Self::Iter { BitFieldIterator(*self, 0) }` -/
def iter (v : Nat) : BitFieldIterator := ⟨v, 0⟩

/-- The `while T::from(1) & *bitfield == T::from(0)` loop inside `next`:
shift the remaining bits right and bump the cursor until the least
significant bit is set.  The loop in the source is only ever entered with a
nonzero bitfield (the `next` guard), and a nonzero even value stays nonzero
after one shift, so adding `b ≠ 0` to the loop condition keeps the embedding
total without changing it on any reachable state. -/
def skipZeros (b i : Nat) : Nat × Nat :=
  if h : 1 &&& b = 0 ∧ b ≠ 0 then skipZeros (b >>> 1) (i + 1) else (b, i)
termination_by b
decreasing_by
  rw [Nat.shiftRight_one]
  exact Nat.div_lt_self (Nat.pos_of_ne_zero h.2) (by decide)

/-- `fn next(&mut self) -> Option<usize>`: if no bits remain, the iterator
is exhausted; otherwise skip cleared positions, consume the set bit (one
more shift and increment) and yield the cursor value before that final
increment.  Returned as the yielded item together with the updated state. -/
def next (s : BitFieldIterator) : Option Nat × BitFieldIterator :=
  if s.bitfield = 0 then (none, s)
  else
    let p := skipZeros s.bitfield s.index
    (some ((p.2 + 1) - 1), ⟨p.1 >>> 1, p.2 + 1⟩)

/-- The state left behind by one call to `next`. -/
def advance (s : BitFieldIterator) : BitFieldIterator := (next s).2

/-- The full sequence obtained by calling `next` repeatedly from a given
iterator state until it signals exhaustion, with the skip-zeros loop of
`next` fused into the recursion (exactly one shift and one cursor bump per
step, emitting the cursor exactly when the shifted-out bit was set).  The
theorem `iterSeq_eq_next` below proves this is the unfolding of repeated
`next` calls. -/
def iterSeq (s : BitFieldIterator) : List Nat :=
  if h : s.bitfield = 0 then []
  else if 1 &&& s.bitfield = 0 then
    iterSeq ⟨s.bitfield >>> 1, s.index + 1⟩
  else
    s.index :: iterSeq ⟨s.bitfield >>> 1, s.index + 1⟩
termination_by s.bitfield
decreasing_by
  all_goals
    rw [Nat.shiftRight_one]
    exact Nat.div_lt_self (Nat.pos_of_ne_zero h) (by decide)

theorem skipZeros_fst_le (b i : Nat) : (skipZeros b i).1 ≤ b := by
  induction b using Nat.strong_induction_on generalizing i with
  | _ b ih =>
    rw [skipZeros]
    split
    · next h =>
      have hlt : b >>> 1 < b := by
        rw [Nat.shiftRight_one]
        exact Nat.div_lt_self (Nat.pos_of_ne_zero h.2) (by decide)
      exact le_trans (ih _ hlt _) (le_of_lt hlt)
    · exact le_refl b

theorem skipZeros_fst_odd (b i : Nat) (hb : b ≠ 0) :
    (skipZeros b i).1 % 2 = 1 := by
  induction b using Nat.strong_induction_on generalizing i with
  | _ b ih =>
    rw [skipZeros]
    split
    · next h =>
      have hlt : b >>> 1 < b := by
        rw [Nat.shiftRight_one]
        exact Nat.div_lt_self (Nat.pos_of_ne_zero h.2) (by decide)
      have hne : b >>> 1 ≠ 0 := by
        rw [Nat.shiftRight_one]
        intro hz
        have heven : b % 2 = 0 := by
          have := h.1
          rwa [Nat.land_comm, Nat.and_one_is_mod] at this
        have : b = 0 := by omega
        exact h.2 this
      exact ih _ hlt _ hne
    · next h =>
      rcases not_and_or.mp h with h1 | h2
      · have : 1 &&& b = b % 2 := by rw [Nat.land_comm, Nat.and_one_is_mod]
        simp only [this] at h1
        omega
      · exact absurd hb (by simpa using h2)

theorem skipZeros_mul (b i : Nat) :
    (skipZeros b i).1 * 2 ^ (skipZeros b i).2 = b * 2 ^ i := by
  induction b using Nat.strong_induction_on generalizing i with
  | _ b ih =>
    rw [skipZeros]
    split
    · next h =>
      have hlt : b >>> 1 < b := by
        rw [Nat.shiftRight_one]
        exact Nat.div_lt_self (Nat.pos_of_ne_zero h.2) (by decide)
      rw [ih _ hlt]
      have heven : b % 2 = 0 := by
        have := h.1
        rwa [Nat.land_comm, Nat.and_one_is_mod] at this
      rw [Nat.shiftRight_one, pow_succ]
      have : b / 2 * 2 = b := by omega
      calc b / 2 * (2 ^ i * 2) = b / 2 * 2 * 2 ^ i := by ring
        _ = b * 2 ^ i := by rw [this]
    · rfl

theorem skipZeros_snd_ge (b i : Nat) : i ≤ (skipZeros b i).2 := by
  induction b using Nat.strong_induction_on generalizing i with
  | _ b ih =>
    rw [skipZeros]
    split
    · next h =>
      have hlt : b >>> 1 < b := by
        rw [Nat.shiftRight_one]
        exact Nat.div_lt_self (Nat.pos_of_ne_zero h.2) (by decide)
      exact le_trans (Nat.le_succ i) (ih _ hlt _)
    · exact le_refl i

theorem skipZeros_fst_ne_zero (b i : Nat) (hb : b ≠ 0) :
    (skipZeros b i).1 ≠ 0 := by
  have := skipZeros_fst_odd b i hb
  omega

theorem skipZeros_of_odd (b i : Nat) (h : b % 2 = 1) :
    skipZeros b i = (b, i) := by
  rw [skipZeros]
  have : 1 &&& b = b % 2 := by rw [Nat.land_comm, Nat.and_one_is_mod]
  simp [this, h]

theorem iterSeq_zero (i : Nat) : iterSeq ⟨0, i⟩ = [] := by
  rw [iterSeq]
  simp

/-- Unfolding of `iterSeq` on a nonzero bitfield, phrased through the
skip-zeros loop of `next`: the first yielded index is the cursor after the
loop, and the rest is the sequence from the post-`next` state. -/
theorem iterSeq_nonzero (b i : Nat) (h : b ≠ 0) :
    iterSeq ⟨b, i⟩ =
      (skipZeros b i).2 ::
        iterSeq ⟨(skipZeros b i).1 >>> 1, (skipZeros b i).2 + 1⟩ := by
  induction b using Nat.strong_induction_on generalizing i with
  | _ b ih =>
    rw [iterSeq]
    by_cases hodd : 1 &&& b = 0
    · have heven : b % 2 = 0 := by
        rwa [Nat.land_comm, Nat.and_one_is_mod] at hodd
      have hb1 : b >>> 1 ≠ 0 := by
        rw [Nat.shiftRight_one]
        omega
      have hlt : b >>> 1 < b := by
        rw [Nat.shiftRight_one]
        exact Nat.div_lt_self (Nat.pos_of_ne_zero h) (by decide)
      have hsz : skipZeros b i = skipZeros (b >>> 1) (i + 1) := by
        rw [skipZeros]
        rw [dif_pos ⟨hodd, h⟩]
      simp only [h, dite_false, hodd, ite_true]
      rw [ih _ hlt _ hb1, hsz]
    · have hb2 : b % 2 = 1 := by
        have h12 : 1 &&& b = b % 2 := by rw [Nat.land_comm, Nat.and_one_is_mod]
        rw [h12] at hodd
        omega
      simp only [h, dite_false, hodd, ite_false]
      rw [skipZeros_of_odd b i hb2]

/-- `iterSeq` is exactly the unfolding of repeated `next` calls: the empty
sequence when `next` signals exhaustion, and otherwise the yielded item
followed by the sequence from the updated state. -/
theorem iterSeq_eq_next (s : BitFieldIterator) :
    iterSeq s = match next s with
      | (none, _) => []
      | (some x, t) => x :: iterSeq t := by
  obtain ⟨b, i⟩ := s
  by_cases h : b = 0
  · subst h
    have hnext : next ⟨0, i⟩ = (none, ⟨0, i⟩) := by
      rw [next]
      simp
    rw [hnext]
    exact iterSeq_zero i
  · have hnext : next ⟨b, i⟩ =
        (some ((skipZeros b i).2 + 1 - 1),
         ⟨(skipZeros b i).1 >>> 1, (skipZeros b i).2 + 1⟩) := by
      rw [next]
      simp [h]
    rw [hnext, iterSeq_nonzero b i h]
    simp

/-- Reconstruction, generalized over the iterator state: summing `2 ^ x`
over the indices yielded from state `⟨b, i⟩` gives `b * 2 ^ i`. -/
theorem iterSeq_sum (b i : Nat) :
    ((iterSeq ⟨b, i⟩).map (fun x => 2 ^ x)).sum = b * 2 ^ i := by
  induction b using Nat.strong_induction_on generalizing i with
  | _ b ih =>
    by_cases hb : b = 0
    · subst hb
      simp [iterSeq_zero]
    · rw [iterSeq_nonzero b i hb]
      have hodd := skipZeros_fst_odd b i hb
      have hle := skipZeros_fst_le b i
      have hmul := skipZeros_mul b i
      set b' := (skipZeros b i).1 with hb'
      set i' := (skipZeros b i).2 with hi'
      have hlt : b' >>> 1 < b := by
        rw [Nat.shiftRight_one]
        have : b' / 2 < b' := Nat.div_lt_self (by omega) (by decide)
        omega
      simp only [List.map_cons, List.sum_cons, ih _ hlt]
      rw [Nat.shiftRight_one, pow_succ]
      have hsplit : b' = b' / 2 * 2 + 1 := by omega
      calc 2 ^ i' + b' / 2 * (2 ^ i' * 2)
          = (b' / 2 * 2 + 1) * 2 ^ i' := by ring
        _ = b' * 2 ^ i' := by rw [← hsplit]
        _ = b * 2 ^ i := hmul

/-- Every yielded index contributes its power of two to the total, hence
`2 ^ x ≤ b * 2 ^ i` for every `x` yielded from state `⟨b, i⟩`. -/
theorem iterSeq_pow_le (b i x : Nat) (hx : x ∈ iterSeq ⟨b, i⟩) :
    2 ^ x ≤ b * 2 ^ i := by
  rw [← iterSeq_sum b i]
  exact List.single_le_sum (fun y _ => Nat.zero_le y) _
    (List.mem_map_of_mem (fun x => 2 ^ x) hx)

/-- Every index yielded from state `⟨b, i⟩` is at least the cursor `i`. -/
theorem iterSeq_ge (b i x : Nat) (hx : x ∈ iterSeq ⟨b, i⟩) : i ≤ x := by
  induction b using Nat.strong_induction_on generalizing i x with
  | _ b ih =>
    by_cases hb : b = 0
    · subst hb
      simp [iterSeq_zero] at hx
    · rw [iterSeq_nonzero b i hb] at hx
      have hge := skipZeros_snd_ge b i
      have hodd := skipZeros_fst_odd b i hb
      have hle := skipZeros_fst_le b i
      rcases List.mem_cons.mp hx with rfl | hx
      · exact hge
      · have hlt : (skipZeros b i).1 >>> 1 < b := by
          rw [Nat.shiftRight_one]
          omega
        have := ih _ hlt _ _ hx
        omega

/-- The sequence yielded from any state is strictly increasing. -/
theorem iterSeq_chain (b i : Nat) :
    List.Chain' (· < ·) (iterSeq ⟨b, i⟩) := by
  induction b using Nat.strong_induction_on generalizing i with
  | _ b ih =>
    by_cases hb : b = 0
    · subst hb
      simp [iterSeq_zero]
    · rw [iterSeq_nonzero b i hb]
      have hodd := skipZeros_fst_odd b i hb
      have hle := skipZeros_fst_le b i
      have hlt : (skipZeros b i).1 >>> 1 < b := by
        rw [Nat.shiftRight_one]
        omega
      refine List.chain'_cons'.mpr ⟨?_, ih _ hlt _⟩
      intro y hy
      have hmem : y ∈ iterSeq ⟨(skipZeros b i).1 >>> 1, (skipZeros b i).2 + 1⟩ :=
        List.mem_of_mem_head? hy
      have := iterSeq_ge _ _ _ hmem
      omega

/-- A value below `2 ^ k` yields at most `k` indices. -/
theorem iterSeq_length (k b i : Nat) (hb : b < 2 ^ k) :
    (iterSeq ⟨b, i⟩).length ≤ k := by
  induction k generalizing b i with
  | zero =>
    have : b = 0 := by simpa using hb
    subst this
    simp [iterSeq_zero]
  | succ k ihk =>
    by_cases hz : b = 0
    · subst hz
      simp [iterSeq_zero]
    · rw [iterSeq_nonzero b i hz]
      have hle := skipZeros_fst_le b i
      have hc : 0 < 2 ^ k := Nat.pos_pow_of_pos k (by decide)
      have hb2 : (skipZeros b i).1 >>> 1 < 2 ^ k := by
        rw [Nat.shiftRight_one, pow_succ] at *
        omega
      simpa using Nat.succ_le_succ (ihk _ ((skipZeros b i).2 + 1) hb2)

theorem skipZeros_two_pow (k i : Nat) : skipZeros (2 ^ k) i = (1, i + k) := by
  induction k generalizing i with
  | zero => simpa using skipZeros_of_odd 1 i (by decide)
  | succ k ihk =>
    rw [skipZeros]
    have h1 : 1 &&& 2 ^ (k + 1) = 0 := by
      rw [Nat.land_comm, Nat.and_one_is_mod, pow_succ, Nat.mul_mod_left]
    have h2 : (2 : Nat) ^ (k + 1) ≠ 0 := (Nat.pos_pow_of_pos _ (by decide)).ne'
    have h3 : 2 ^ (k + 1) >>> 1 = 2 ^ k := by
      rw [Nat.shiftRight_one, pow_succ, Nat.mul_div_cancel]
      decide
    simp only [h1, h2, ne_eq, not_false_eq_true, and_self, dif_pos, h3, ihk,
      Prod.mk.injEq, true_and]
    omega

/-- A single set bit at position `k` yields exactly the index `i + k`. -/
theorem iterSeq_two_pow (k i : Nat) : iterSeq ⟨2 ^ k, i⟩ = [i + k] := by
  have hz : (2 : Nat) ^ k ≠ 0 := (Nat.pos_pow_of_pos _ (by decide)).ne'
  rw [iterSeq_nonzero _ _ hz]
  rw [skipZeros_two_pow]
  simpa using iterSeq_zero (i + k + 1)

/-- The all-ones value `2 ^ k - 1` yields the `k` consecutive indices
starting at the cursor. -/
theorem iterSeq_all_ones (k i : Nat) :
    iterSeq ⟨2 ^ k - 1, i⟩ = List.range' i k := by
  induction k generalizing i with
  | zero => simpa using iterSeq_zero i
  | succ k ihk =>
    have hpos : 0 < 2 ^ (k + 1) := Nat.pos_pow_of_pos _ (by decide)
    have hk : 0 < 2 ^ k := Nat.pos_pow_of_pos _ (by decide)
    have hz : 2 ^ (k + 1) - 1 ≠ 0 := by
      rw [pow_succ]
      omega
    have hodd : (2 ^ (k + 1) - 1) % 2 = 1 := by
      rw [pow_succ]
      omega
    rw [iterSeq_nonzero _ _ hz]
    simp only [skipZeros_of_odd _ _ hodd]
    have hshift : (2 ^ (k + 1) - 1) >>> 1 = 2 ^ k - 1 := by
      rw [Nat.shiftRight_one, pow_succ]
      omega
    rw [hshift, ihk]
    rw [List.range'_succ]

/-- Summing the powers of two over `0, 1, …, k-1` gives the all-ones value. -/
theorem sum_range_two_pow (k : Nat) :
    ((List.range k).map (fun x => 2 ^ x)).sum = 2 ^ k - 1 := by
  induction k with
  | zero => simp
  | succ k ihk =>
    rw [List.range_succ, List.map_append, List.sum_append, ihk]
    have : 0 < 2 ^ k := Nat.pos_pow_of_pos _ (by decide)
    simp only [List.map_cons, List.map_nil, List.sum_cons, List.sum_nil]
    rw [pow_succ]
    omega

/-- `next` signals exhaustion exactly on a zero bitfield. -/
theorem next_none_iff (s : BitFieldIterator) :
    (next s).1 = none ↔ s.bitfield = 0 := by
  rw [next]
  by_cases h : s.bitfield = 0 <;> simp [h]

theorem next_of_zero (s : BitFieldIterator) (h : s.bitfield = 0) :
    next s = (none, s) := by
  rw [next]
  simp [h]

/-- One advance at least halves the remaining bits. -/
theorem advance_bitfield_le (s : BitFieldIterator) :
    (advance s).bitfield ≤ s.bitfield / 2 := by
  rw [advance, next]
  by_cases h : s.bitfield = 0
  · simp [h]
  · have hle := skipZeros_fst_le s.bitfield s.index
    simp only [h, if_neg, ite_false]
    rw [Nat.shiftRight_one]
    exact Nat.div_le_div_right hle

theorem advance_iterate_le (s : BitFieldIterator) (n : Nat) :
    (advance^[n] s).bitfield ≤ s.bitfield / 2 ^ n := by
  induction n with
  | zero => simp
  | succ n ihn =>
    rw [Function.iterate_succ_apply']
    calc (advance (advance^[n] s)).bitfield
        ≤ (advance^[n] s).bitfield / 2 := advance_bitfield_le _
      _ ≤ s.bitfield / 2 ^ n / 2 := Nat.div_le_div_right ihn
      _ = s.bitfield / 2 ^ (n + 1) := by
          rw [Nat.div_div_eq_div_mul, pow_succ]

/-- C1: for every bitfield value `v` of any supported width `W`, summing
`2 ^ index` over every index yielded by `iter()` on `v` equals `v`
exactly. -/
theorem iter_reconstructs (W v : Nat) (hW : SupportedWidth W)
    (hv : v < 2 ^ W) :
    ((iterSeq (iter v)).map (fun x => 2 ^ x)).sum = v := by
  have h := iterSeq_sum v 0
  simpa using h

theorem iter_reconstructs_w :
    SupportedWidth 8 ∧ 37 < 2 ^ 8 ∧
    ((iterSeq (iter 37)).map (fun x => 2 ^ x)).sum = 37 :=
  ⟨⟨IntWidth.u8, rfl⟩, by decide,
   iter_reconstructs 8 37 ⟨IntWidth.u8, rfl⟩ (by decide)⟩

/-- C2: for every bitfield value of every supported width, the sequence of
indices produced by `iter()` is strictly increasing: any two consecutive
yielded elements `a`, `b` satisfy `a < b`. -/
theorem iter_ascending (W v : Nat) (hW : SupportedWidth W)
    (hv : v < 2 ^ W) :
    List.Chain' (· < ·) (iterSeq (iter v)) :=
  iterSeq_chain v 0

theorem iter_ascending_w :
    SupportedWidth 8 ∧ 37 < 2 ^ 8 ∧
    List.Chain' (· < ·) (iterSeq (iter 37)) :=
  ⟨⟨IntWidth.u8, rfl⟩, by decide,
   iter_ascending 8 37 ⟨IntWidth.u8, rfl⟩ (by decide)⟩

/-- C3: for every index with `index < size()`, the sequence produced by
iterating `one_at(index)` is exactly the one-element sequence `[index]`. -/
theorem one_at_roundtrip (W index : Nat) (hW : SupportedWidth W)
    (h : index < W) :
    iterSeq (iter (one_at W index)) = [index] := by
  have hlt : 2 ^ index < 2 ^ W := Nat.pow_lt_pow_right (by decide) h
  have hone : one_at W index = 2 ^ index := by
    rw [one_at, Nat.shiftLeft_eq, one_mul, Nat.mod_eq_of_lt hlt]
  show iterSeq ⟨one_at W index, 0⟩ = [index]
  rw [hone]
  simpa using iterSeq_two_pow index 0

theorem one_at_roundtrip_w :
    SupportedWidth 32 ∧ 3 < 32 ∧ iterSeq (iter (one_at 32 3)) = [3] :=
  ⟨⟨IntWidth.u32, rfl⟩, by decide,
   one_at_roundtrip 32 3 ⟨IntWidth.u32, rfl⟩ (by decide)⟩

/-- C4: for every bitfield value of width `W`, `full()` returns true iff
the value equals `one_at(0) | zero_at(0)`, i.e. iff every one of the `W`
bits is set, which holds iff `iter()` yields exactly `size()` elements,
namely `0, 1, …, size()-1`. -/
theorem full_iff_all_ones (W v : Nat) (hW : SupportedWidth W) :
    (full W v = true ↔ v = (one_at W 0 ||| zero_at W 0)) ∧
    (full W v = true ↔ v = 2 ^ W - 1) ∧
    (full W v = true ↔ iterSeq (iter v) = List.range W) := by
  have hmask : one_at W 0 ||| zero_at W 0 = 2 ^ W - 1 := by
    obtain ⟨t, rfl⟩ := hW
    cases t <;> decide
  have h1 : full W v = true ↔ v = (one_at W 0 ||| zero_at W 0) := by
    rw [full]
    exact beq_iff_eq
  have h2 : full W v = true ↔ v = 2 ^ W - 1 := by rw [h1, hmask]
  refine ⟨h1, h2, ?_⟩
  rw [h2]
  constructor
  · rintro rfl
    show iterSeq ⟨2 ^ W - 1, 0⟩ = List.range W
    rw [iterSeq_all_ones, ← List.range_eq_range']
  · intro h
    have hsum := iterSeq_sum v 0
    have h0 : iterSeq ⟨v, 0⟩ = List.range W := h
    rw [h0, sum_range_two_pow] at hsum
    have : 0 < 2 ^ W := Nat.pos_pow_of_pos _ (by decide)
    omega

theorem full_iff_all_ones_w :
    SupportedWidth 8 ∧
    ((full 8 255 = true ↔ (255 : Nat) = (one_at 8 0 ||| zero_at 8 0)) ∧
     (full 8 255 = true ↔ (255 : Nat) = 2 ^ 8 - 1) ∧
     (full 8 255 = true ↔ iterSeq (iter 255) = List.range 8)) :=
  ⟨⟨IntWidth.u8, rfl⟩, full_iff_all_ones 8 255 ⟨IntWidth.u8, rfl⟩⟩

/-- C5: for every index with `index < size()`, `zero_at(index)` equals the
bitwise complement of `one_at(index)` within the W-bit field; consequently
`zero_at(index) AND one_at(index)` is the all-zero value and
`zero_at(index) OR one_at(index)` is the all-ones value. -/
theorem zero_at_complement (W index : Nat) (hW : SupportedWidth W)
    (h : index < W) :
    zero_at W index = (2 ^ W - 1) - one_at W index ∧
    zero_at W index &&& one_at W index = 0 ∧
    zero_at W index ||| one_at W index = 2 ^ W - 1 := by
  obtain ⟨t, rfl⟩ := hW
  revert h
  cases t <;> revert index <;> decide

theorem zero_at_complement_w :
    SupportedWidth 8 ∧ 3 < 8 ∧
    (zero_at 8 3 = (2 ^ 8 - 1) - one_at 8 3 ∧
     zero_at 8 3 &&& one_at 8 3 = 0 ∧
     zero_at 8 3 ||| one_at 8 3 = 2 ^ 8 - 1) :=
  ⟨⟨IntWidth.u8, rfl⟩, by decide,
   zero_at_complement 8 3 ⟨IntWidth.u8, rfl⟩ (by decide)⟩

/-- C6: enumerating the all-zero value via `iter()` yields an empty
sequence, and enumerating the all-ones value of width `W` yields every
index `0..W` in order. -/
theorem iter_empty_and_all_ones (W : Nat) :
    iterSeq (iter 0) = [] ∧ iterSeq (iter (2 ^ W - 1)) = List.range W := by
  constructor
  · exact iterSeq_zero 0
  · show iterSeq ⟨2 ^ W - 1, 0⟩ = List.range W
    rw [iterSeq_all_ones, ← List.range_eq_range']

/-- C7: for every bitfield value of width `W`, iteration terminates: the
sequence produced by `iter()` is finite with at most `W` elements, and the
`next` operation repeated from a fresh iterator reaches exhaustion within
`W` advance steps. -/
theorem iter_terminates (W v : Nat) (hW : SupportedWidth W)
    (hv : v < 2 ^ W) :
    (iterSeq (iter v)).length ≤ W ∧
    (advance^[W] (iter v)).bitfield = 0 ∧
    (next (advance^[W] (iter v))).1 = none := by
  have h1 := advance_iterate_le (iter v) W
  have h2 : (iter v).bitfield = v := rfl
  rw [h2] at h1
  have hz : v / 2 ^ W = 0 := Nat.div_eq_of_lt hv
  have hbf : (advance^[W] (iter v)).bitfield = 0 := by omega
  exact ⟨iterSeq_length W v 0 hv, hbf, (next_none_iff _).mpr hbf⟩

theorem iter_terminates_w :
    SupportedWidth 8 ∧ 37 < 2 ^ 8 ∧
    ((iterSeq (iter 37)).length ≤ 8 ∧
     (advance^[8] (iter 37)).bitfield = 0 ∧
     (next (advance^[8] (iter 37))).1 = none) :=
  ⟨⟨IntWidth.u8, rfl⟩, by decide,
   iter_terminates 8 37 ⟨IntWidth.u8, rfl⟩ (by decide)⟩

/-- C8: `size()` for a width-W type always returns `W`: 8, 16, 32 and 64
for the four supported widths, and the designated default bitfield type is
the 32-bit width. -/
theorem sizes_and_default :
    IntWidth.size IntWidth.u8 = 8 ∧ IntWidth.size IntWidth.u16 = 16 ∧
    IntWidth.size IntWidth.u32 = 32 ∧ IntWidth.size IntWidth.u64 = 64 ∧
    DefaultBitField = IntWidth.u32 :=
  ⟨rfl, rfl, rfl, rfl, rfl⟩

/-- C9: once `next` has signalled exhaustion (returned no item, because the
remaining-bits state is all zero), every subsequent call to `next` on that
same iterator also signals exhaustion and never yields an item: the
remaining-bits state stays zero. -/
theorem next_exhaustion_permanent (s : BitFieldIterator)
    (h : (next s).1 = none) (n : Nat) :
    advance^[n] s = s ∧ (next (advance^[n] s)).1 = none ∧
    (advance^[n] s).bitfield = 0 := by
  have hz : s.bitfield = 0 := (next_none_iff s).mp h
  have hfix : advance s = s := by rw [advance, next_of_zero s hz]
  have hiter : advance^[n] s = s := Function.iterate_fixed hfix n
  rw [hiter]
  exact ⟨rfl, h, hz⟩

theorem next_exhaustion_permanent_w :
    (next ⟨0, 5⟩).1 = none ∧
    (advance^[3] (⟨0, 5⟩ : BitFieldIterator) = ⟨0, 5⟩ ∧
     (next (advance^[3] (⟨0, 5⟩ : BitFieldIterator))).1 = none ∧
     (advance^[3] (⟨0, 5⟩ : BitFieldIterator)).bitfield = 0) :=
  ⟨rfl, next_exhaustion_permanent ⟨0, 5⟩ rfl 3⟩

/-- C10: every index yielded by `iter()` on a bitfield value of width `W`
is strictly less than `W`, for every value of every supported width. -/
theorem iter_indices_lt_width (W v x : Nat) (hW : SupportedWidth W)
    (hv : v < 2 ^ W) (hx : x ∈ iterSeq (iter v)) : x < W := by
  have hle : 2 ^ x ≤ v * 2 ^ 0 := iterSeq_pow_le v 0 x hx
  have h2 : 2 ^ x < 2 ^ W := by
    have : v * 2 ^ 0 = v := by simp
    omega
  by_contra hge
  push_neg at hge
  have : 2 ^ W ≤ 2 ^ x := Nat.pow_le_pow_right (by decide) hge
  omega

theorem iter_indices_lt_width_w :
    SupportedWidth 8 ∧ 37 < 2 ^ 8 ∧ 0 ∈ iterSeq (iter 37) ∧ 0 < 8 := by
  have hmem : 0 ∈ iterSeq (iter 37) := by
    show 0 ∈ iterSeq ⟨37, 0⟩
    rw [iterSeq_nonzero 37 0 (by decide), skipZeros_of_odd 37 0 (by decide)]
    exact List.mem_cons_self _ _
  exact ⟨⟨IntWidth.u8, rfl⟩, by decide, hmem,
    iter_indices_lt_width 8 37 0 ⟨IntWidth.u8, rfl⟩ (by decide) hmem⟩

end Bitfield
